import Mathlib

/-!
Verification of the `unif` repository's RecBERT data pipeline.

This file gives a shallow embedding, in Lean 4, of the algorithmic core of
`src/uf/application/rec_bert.py` and `src/uf/core.py`:

* `sample_wrong_tokens` (the noise sampler over four parallel integer
  sequences, phases `add -> rep -> del`),
* `_convert_X` / `_convert_x` (the per-example encoder and input-shape
  resolution),
* the probability-normalization check of `RecBERTLM.__init__`,
* `_get_predict_outputs` (the answer reconstruction loops), and
* `_parallel_convert` (round-robin bucketing, sort by bucket index, merge).

Python machine integers are modelled as `Nat` (all quantities involved are
non-negative token ids, counts and indices); probabilities as `ℚ`.
Randomness (`random.choice`, `random.randint`, the global PRNG stream) is
modelled by universally-quantified oracle functions `Nat → Nat`: every
concrete run of the Python code corresponds to some valuation of the
oracles, so a property proved for all oracles holds for every run.
-/

namespace RecBert

/-- The four parallel sequences mutated in place by `sample_wrong_tokens`:
token ids and the rep/add/del label sequences. -/
structure SState where
  ids : List Nat
  rep : List Nat
  add : List Nat
  del : List Nat
  deriving Repr, DecidableEq

/-- Candidate indices of the `add` phase: `i` ranges over
`range(0, len(_input_ids) - 1)` with `_input_ids[i] != 0`,
`_input_ids[i+1] != 0`, `_add_label_ids[i] == 0`, `_add_label_ids[i+1] == 0`. -/
def addCands (s : SState) : List Nat :=
  (List.range (s.ids.length - 1)).filter fun i =>
    decide (s.ids.getD i 0 ≠ 0 ∧ s.ids.getD (i + 1) 0 ≠ 0 ∧
      s.add.getD i 0 = 0 ∧ s.add.getD (i + 1) 0 = 0)

/-- Candidate indices of the `rep` phase: non-pad, not yet rep-labeled. -/
def repCands (s : SState) : List Nat :=
  (List.range s.ids.length).filter fun i =>
    decide (s.ids.getD i 0 ≠ 0 ∧ s.rep.getD i 0 = 0)

/-- Candidate indices of the `del` phase: non-pad, not yet del-flagged. -/
def delCands (s : SState) : List Nat :=
  (List.range s.ids.length).filter fun i =>
    decide (s.ids.getD i 0 ≠ 0 ∧ s.del.getD i 0 = 0)

/-- `random.choice(cand_indicies)`: an arbitrary element of the candidate
list, selected by the oracle value `r`. -/
def chooseCand (cands : List Nat) (r : Nat) : Nat :=
  cands.getD (r % cands.length) 0

/-- `random.randint(1, vocab_size - 1)`: a value in `[1, vocab_size - 1]`
selected by the oracle value `r`. -/
def randint1 (vocab r : Nat) : Nat := 1 + r % (vocab - 1)

/-- One `add`-phase edit at `index`:
`_add_label_ids[index] = _input_ids.pop(index + 1)`, pop `index + 1` from the
three remaining sequences, then append a trailing `0` to all four. -/
def addStep (s : SState) (index : Nat) : SState :=
  { ids := s.ids.eraseIdx (index + 1) ++ [0],
    rep := s.rep.eraseIdx (index + 1) ++ [0],
    add := (s.add.set index (s.ids.getD (index + 1) 0)).eraseIdx (index + 1) ++ [0],
    del := s.del.eraseIdx (index + 1) ++ [0] }

/-- One `rep`-phase edit at `index`: record the original id in the rep
labels, then overwrite the id with the random wrong id `w`. -/
def repStep (s : SState) (index w : Nat) : SState :=
  { s with rep := s.rep.set index (s.ids.getD index 0),
           ids := s.ids.set index w }

/-- One `del`-phase edit at `index`: insert the random wrong id `w` into the
ids, insert `0`/`0`/`1` into the rep/add/del labels at the same index, then
pop the last element of every sequence. -/
def delStep (s : SState) (index w : Nat) : SState :=
  { ids := (s.ids.insertIdx index w).dropLast,
    rep := (s.rep.insertIdx index 0).dropLast,
    add := (s.add.insertIdx index 0).dropLast,
    del := (s.del.insertIdx index 1).dropLast }

/-- The `add` phase loop (`for _ in range(max_add)`), returning the final
state together with the number of realized add edits. -/
def addPhase (rc : Nat → Nat) : Nat → SState → SState × Nat
  | 0, s => (s, 0)
  | f + 1, s =>
    if (addCands s).isEmpty then (s, 0)
    else
      ((addPhase rc f (addStep s (chooseCand (addCands s) (rc f)))).1,
       (addPhase rc f (addStep s (chooseCand (addCands s) (rc f)))).2 + 1)

/-- The `rep` phase loop (`for _ in range(max_rep)`), returning the final
state together with the number of realized rep edits. -/
def repPhase (rc rr : Nat → Nat) (vocab : Nat) : Nat → SState → SState × Nat
  | 0, s => (s, 0)
  | f + 1, s =>
    if (repCands s).isEmpty then (s, 0)
    else
      ((repPhase rc rr vocab f
          (repStep s (chooseCand (repCands s) (rc f)) (randint1 vocab (rr f)))).1,
       (repPhase rc rr vocab f
          (repStep s (chooseCand (repCands s) (rc f)) (randint1 vocab (rr f)))).2 + 1)

/-- The `del` phase loop (`for _ in range(max_del)`), returning the final
state together with the number of realized del edits.  Each iteration first
checks `if _input_ids[-1] != 0: break` (no more space). -/
def delPhase (rc rr : Nat → Nat) (vocab : Nat) : Nat → SState → SState × Nat
  | 0, s => (s, 0)
  | f + 1, s =>
    if s.ids.getLastD 0 ≠ 0 then (s, 0)
    else if (delCands s).isEmpty then (s, 0)
    else
      ((delPhase rc rr vocab f
          (delStep s (chooseCand (delCands s) (rc f)) (randint1 vocab (rr f)))).1,
       (delPhase rc rr vocab f
          (delStep s (chooseCand (delCands s) (rc f)) (randint1 vocab (rr f)))).2 + 1)

/-- `sample_wrong_tokens`: the sampling follows the order `add -> rep -> del`. -/
def sampleWrongTokens (rcA rcR rrR rcD rrD : Nat → Nat)
    (maxRep maxAdd maxDel vocabSize : Nat) (s : SState) : SState :=
  (delPhase rcD rrD vocabSize maxDel
    (repPhase rcR rrR vocabSize maxRep
      (addPhase rcA maxAdd s).1).1).1

/-! ### Basic facts about candidate selection -/

theorem chooseCand_mem {cands : List Nat} (h : cands ≠ []) (r : Nat) :
    chooseCand cands r ∈ cands := by
  have hlen : 0 < cands.length := List.length_pos.mpr h
  have hlt : r % cands.length < cands.length := Nat.mod_lt _ hlen
  unfold chooseCand
  rw [List.getD_eq_getElem?_getD, List.getElem?_eq_getElem hlt]
  exact List.getElem_mem hlt

theorem addCands_lt {s : SState} {i : Nat} (h : i ∈ addCands s) :
    i + 1 < s.ids.length := by
  have := List.mem_filter.mp h
  have hi := List.mem_range.mp this.1
  omega

theorem addCands_spec {s : SState} {i : Nat} (h : i ∈ addCands s) :
    s.ids.getD i 0 ≠ 0 ∧ s.ids.getD (i + 1) 0 ≠ 0 ∧
      s.add.getD i 0 = 0 ∧ s.add.getD (i + 1) 0 = 0 := by
  have := List.mem_filter.mp h
  exact of_decide_eq_true this.2

theorem repCands_lt {s : SState} {i : Nat} (h : i ∈ repCands s) :
    i < s.ids.length :=
  List.mem_range.mp (List.mem_filter.mp h).1

theorem repCands_spec {s : SState} {i : Nat} (h : i ∈ repCands s) :
    s.ids.getD i 0 ≠ 0 ∧ s.rep.getD i 0 = 0 :=
  of_decide_eq_true (List.mem_filter.mp h).2

theorem delCands_lt {s : SState} {i : Nat} (h : i ∈ delCands s) :
    i < s.ids.length :=
  List.mem_range.mp (List.mem_filter.mp h).1

theorem delCands_spec {s : SState} {i : Nat} (h : i ∈ delCands s) :
    s.ids.getD i 0 ≠ 0 ∧ s.del.getD i 0 = 0 :=
  of_decide_eq_true (List.mem_filter.mp h).2

/-! ### Length preservation -/

/-- All four parallel sequences have length `L`. -/
def Wf (s : SState) (L : Nat) : Prop :=
  s.ids.length = L ∧ s.rep.length = L ∧ s.add.length = L ∧ s.del.length = L

theorem addStep_wf {s : SState} {L : Nat} (hs : Wf s L) {i : Nat}
    (hi : i ∈ addCands s) : Wf (addStep s i) L := by
  obtain ⟨h1, h2, h3, h4⟩ := hs
  have hlt : i + 1 < s.ids.length := addCands_lt hi
  refine ⟨?_, ?_, ?_, ?_⟩ <;>
    simp [addStep, List.length_eraseIdx, h1, h2, h3, h4, hlt, h1 ▸ hlt] <;> omega

theorem repStep_wf {s : SState} {L : Nat} (hs : Wf s L) (i w : Nat) :
    Wf (repStep s i w) L := by
  obtain ⟨h1, h2, h3, h4⟩ := hs
  exact ⟨by simp [repStep, h1], by simp [repStep, h2], h3, h4⟩

theorem delStep_wf {s : SState} {L : Nat} (hs : Wf s L) {i : Nat}
    (hi : i ∈ delCands s) (w : Nat) : Wf (delStep s i w) L := by
  obtain ⟨h1, h2, h3, h4⟩ := hs
  have hlt : i < s.ids.length := delCands_lt hi
  refine ⟨?_, ?_, ?_, ?_⟩ <;>
    rw [delStep] <;>
    simp [List.length_insertIdx, h1, h2, h3, h4, Nat.le_of_lt (h1 ▸ hlt)]

theorem addPhase_wf {L : Nat} (rc : Nat → Nat) :
    ∀ (f : Nat) (s : SState), Wf s L → Wf (addPhase rc f s).1 L := by
  intro f
  induction f with
  | zero => intro s hs; exact hs
  | succ f ih =>
    intro s hs
    rw [addPhase]
    by_cases hc : (addCands s).isEmpty
    · rw [if_pos hc]; exact hs
    · have hne : addCands s ≠ [] := by
        simpa [List.isEmpty_iff] using hc
      rw [if_neg hc]
      exact ih _ (addStep_wf hs (chooseCand_mem hne _))

theorem repPhase_wf {L : Nat} (rc rr : Nat → Nat) (vocab : Nat) :
    ∀ (f : Nat) (s : SState), Wf s L → Wf (repPhase rc rr vocab f s).1 L := by
  intro f
  induction f with
  | zero => intro s hs; exact hs
  | succ f ih =>
    intro s hs
    rw [repPhase]
    by_cases hc : (repCands s).isEmpty
    · rw [if_pos hc]; exact hs
    · rw [if_neg hc]
      exact ih _ (repStep_wf hs _ _)

theorem delPhase_wf {L : Nat} (rc rr : Nat → Nat) (vocab : Nat) :
    ∀ (f : Nat) (s : SState), Wf s L → Wf (delPhase rc rr vocab f s).1 L := by
  intro f
  induction f with
  | zero => intro s hs; exact hs
  | succ f ih =>
    intro s hs
    rw [delPhase]
    by_cases hl : s.ids.getLastD 0 ≠ 0
    · rw [if_pos hl]; exact hs
    · rw [if_neg hl]
      by_cases hc : (delCands s).isEmpty
      · rw [if_pos hc]; exact hs
      · have hne : delCands s ≠ [] := by
          simpa [List.isEmpty_iff] using hc
        rw [if_neg hc]
        exact ih _ (delStep_wf hs (chooseCand_mem hne _) _)

theorem sampleWrongTokens_wf {L : Nat} (rcA rcR rrR rcD rrD : Nat → Nat)
    (maxRep maxAdd maxDel vocabSize : Nat) {s : SState} (hs : Wf s L) :
    Wf (sampleWrongTokens rcA rcR rrR rcD rrD maxRep maxAdd maxDel vocabSize s) L :=
  delPhase_wf _ _ _ _ _ (repPhase_wf _ _ _ _ _ (addPhase_wf _ _ _ hs))

/-! ### Realized edit counts (best-effort budgets) -/

theorem addPhase_count (rc : Nat → Nat) :
    ∀ (f : Nat) (s : SState),
      (addPhase rc f s).2 ≤ f ∧
        ((addPhase rc f s).2 = f ∨ addCands (addPhase rc f s).1 = []) := by
  intro f
  induction f with
  | zero => intro s; exact ⟨Nat.le_refl 0, Or.inl rfl⟩
  | succ f ih =>
    intro s
    rw [addPhase]
    by_cases hc : (addCands s).isEmpty
    · rw [if_pos hc]
      exact ⟨Nat.zero_le _, Or.inr (List.isEmpty_iff.mp hc)⟩
    · rw [if_neg hc]
      obtain ⟨h1, h2⟩ := ih (addStep s (chooseCand (addCands s) (rc f)))
      exact ⟨Nat.succ_le_succ h1, h2.imp (fun h => by omega) id⟩

theorem repPhase_count (rc rr : Nat → Nat) (vocab : Nat) :
    ∀ (f : Nat) (s : SState),
      (repPhase rc rr vocab f s).2 ≤ f ∧
        ((repPhase rc rr vocab f s).2 = f ∨
          repCands (repPhase rc rr vocab f s).1 = []) := by
  intro f
  induction f with
  | zero => intro s; exact ⟨Nat.le_refl 0, Or.inl rfl⟩
  | succ f ih =>
    intro s
    rw [repPhase]
    by_cases hc : (repCands s).isEmpty
    · rw [if_pos hc]
      exact ⟨Nat.zero_le _, Or.inr (List.isEmpty_iff.mp hc)⟩
    · rw [if_neg hc]
      obtain ⟨h1, h2⟩ :=
        ih (repStep s (chooseCand (repCands s) (rc f)) (randint1 vocab (rr f)))
      exact ⟨Nat.succ_le_succ h1, h2.imp (fun h => by omega) id⟩

theorem delPhase_count (rc rr : Nat → Nat) (vocab : Nat) :
    ∀ (f : Nat) (s : SState),
      (delPhase rc rr vocab f s).2 ≤ f ∧
        ((delPhase rc rr vocab f s).2 = f ∨
          delCands (delPhase rc rr vocab f s).1 = [] ∨
          (delPhase rc rr vocab f s).1.ids.getLastD 0 ≠ 0) := by
  intro f
  induction f with
  | zero => intro s; exact ⟨Nat.le_refl 0, Or.inl rfl⟩
  | succ f ih =>
    intro s
    rw [delPhase]
    by_cases hl : s.ids.getLastD 0 ≠ 0
    · rw [if_pos hl]
      exact ⟨Nat.zero_le _, Or.inr (Or.inr hl)⟩
    · rw [if_neg hl]
      by_cases hc : (delCands s).isEmpty
      · rw [if_pos hc]
        exact ⟨Nat.zero_le _, Or.inr (Or.inl (List.isEmpty_iff.mp hc))⟩
      · rw [if_neg hc]
        obtain ⟨h1, h2⟩ :=
          ih (delStep s (chooseCand (delCands s) (rc f)) (randint1 vocab (rr f)))
        exact ⟨Nat.succ_le_succ h1, h2.imp (fun h => by omega) id⟩

/-- C2: for every call to the noise sampler with non-negative budgets, the
number of realized edits of each phase is at most the corresponding budget,
with equality unless the candidate set of that phase is exhausted at the
point the loop stops (or, for `del`, the sequence is full); exhaustion is a
silent `break`, never an exception (the embedding is a total function). -/
theorem sampler_realized_counts (rcA rcR rrR rcD rrD : Nat → Nat)
    (maxRep maxAdd maxDel vocab : Nat) (s : SState) :
    (addPhase rcA maxAdd s).2 ≤ maxAdd ∧
    ((addPhase rcA maxAdd s).2 = maxAdd ∨ addCands (addPhase rcA maxAdd s).1 = []) ∧
    (repPhase rcR rrR vocab maxRep (addPhase rcA maxAdd s).1).2 ≤ maxRep ∧
    ((repPhase rcR rrR vocab maxRep (addPhase rcA maxAdd s).1).2 = maxRep ∨
      repCands (repPhase rcR rrR vocab maxRep (addPhase rcA maxAdd s).1).1 = []) ∧
    (delPhase rcD rrD vocab maxDel
        (repPhase rcR rrR vocab maxRep (addPhase rcA maxAdd s).1).1).2 ≤ maxDel ∧
    ((delPhase rcD rrD vocab maxDel
        (repPhase rcR rrR vocab maxRep (addPhase rcA maxAdd s).1).1).2 = maxDel ∨
      delCands (delPhase rcD rrD vocab maxDel
        (repPhase rcR rrR vocab maxRep (addPhase rcA maxAdd s).1).1).1 = [] ∨
      (delPhase rcD rrD vocab maxDel
        (repPhase rcR rrR vocab maxRep (addPhase rcA maxAdd s).1).1).1.ids.getLastD 0 ≠ 0) := by
  obtain ⟨a1, a2⟩ := addPhase_count rcA maxAdd s
  obtain ⟨r1, r2⟩ := repPhase_count rcR rrR vocab maxRep (addPhase rcA maxAdd s).1
  obtain ⟨d1, d2⟩ := delPhase_count rcD rrD vocab maxDel
    (repPhase rcR rrR vocab maxRep (addPhase rcA maxAdd s).1).1
  exact ⟨a1, a2, r1, r2, d1, d2⟩

/-! ### List helper lemmas for `insertIdx` -/

theorem insertIdx_eq_take_cons_drop {α : Type} (x : α) :
    ∀ (n : Nat) (l : List α), n ≤ l.length →
      l.insertIdx n x = l.take n ++ x :: l.drop n
  | 0, l, _ => by simp
  | n + 1, [], h => by simp at h
  | n + 1, a :: t, h => by
    rw [List.insertIdx_succ_cons]
    simp [insertIdx_eq_take_cons_drop x n t (by simpa using h)]

theorem getElem?_insertIdx_le {α : Type} (l : List α) (x : α) (n k : Nat)
    (hn : n ≤ l.length) :
    (l.insertIdx n x)[k]? =
      if k < n then l[k]? else if k = n then some x else l[k - 1]? := by
  rw [insertIdx_eq_take_cons_drop x n l hn, List.getElem?_append]
  have hlen : (l.take n).length = n := by simp [Nat.min_eq_left hn]
  rw [hlen]
  by_cases h1 : k < n
  · rw [if_pos h1, if_pos h1, List.getElem?_take, if_pos h1]
  · rw [if_neg h1, if_neg h1]
    by_cases h2 : k = n
    · subst h2
      simp
    · rw [if_neg h2]
      have h3 : k - n = (k - n - 1) + 1 := by omega
      rw [h3, List.getElem?_cons_succ, List.getElem?_drop]
      congr 1
      omega

/-! ### Mutual exclusivity of rep labels and del flags -/

theorem getD_zero_of_forall {l : List Nat} (h : ∀ x ∈ l, x = 0) (i : Nat) :
    l.getD i 0 = 0 := by
  rw [List.getD_eq_getElem?_getD]
  by_cases hi : i < l.length
  · rw [List.getElem?_eq_getElem hi]
    exact h _ (List.getElem_mem hi)
  · rw [List.getElem?_eq_none (Nat.le_of_not_lt hi)]
    rfl

theorem addStep_del_zero {s : SState} (h : ∀ x ∈ s.del, x = 0) (i : Nat) :
    ∀ x ∈ (addStep s i).del, x = 0 := by
  intro x hx
  rcases List.mem_append.mp hx with hx | hx
  · exact h x ((List.eraseIdx_sublist s.del (i + 1)).subset hx)
  · simpa using hx

theorem addPhase_del_zero (rc : Nat → Nat) :
    ∀ (f : Nat) (s : SState), (∀ x ∈ s.del, x = 0) →
      ∀ x ∈ (addPhase rc f s).1.del, x = 0 := by
  intro f
  induction f with
  | zero => intro s hs; exact hs
  | succ f ih =>
    intro s hs
    rw [addPhase]
    by_cases hc : (addCands s).isEmpty
    · rw [if_pos hc]; exact hs
    · rw [if_neg hc]
      exact ih _ (addStep_del_zero hs _)

theorem repPhase_del_zero (rc rr : Nat → Nat) (vocab : Nat) :
    ∀ (f : Nat) (s : SState), (∀ x ∈ s.del, x = 0) →
      ∀ x ∈ (repPhase rc rr vocab f s).1.del, x = 0 := by
  intro f
  induction f with
  | zero => intro s hs; exact hs
  | succ f ih =>
    intro s hs
    rw [repPhase]
    by_cases hc : (repCands s).isEmpty
    · rw [if_pos hc]; exact hs
    · rw [if_neg hc]
      exact ih _ hs

/-- No position carries both a non-zero rep label and a non-zero del flag. -/
def Excl (s : SState) : Prop :=
  ∀ i, s.rep.getD i 0 = 0 ∨ s.del.getD i 0 = 0

theorem delStep_excl {s : SState} {L : Nat} (hwf : Wf s L) (hx : Excl s) {i : Nat}
    (hi : i ∈ delCands s) (w : Nat) : Excl (delStep s i w) := by
  intro j
  obtain ⟨h1, h2, h3, h4⟩ := hwf
  have hiL : i < L := h1 ▸ delCands_lt hi
  have hrep : i ≤ s.rep.length := by omega
  have hdel : i ≤ s.del.length := by omega
  simp only [delStep, List.getD_eq_getElem?_getD, List.getElem?_dropLast,
    List.length_insertIdx _ _ hrep, List.length_insertIdx _ _ hdel,
    getElem?_insertIdx_le _ _ _ _ hrep, getElem?_insertIdx_le _ _ _ _ hdel]
  by_cases hj : j < i
  · rw [if_pos (by omega : j < s.rep.length + 1 - 1),
      if_pos (by omega : j < s.del.length + 1 - 1), if_pos hj, if_pos hj]
    have := hx j
    simpa [List.getD_eq_getElem?_getD] using this
  · by_cases hj2 : j = i
    · subst hj2
      rw [if_pos (by omega : j < s.rep.length + 1 - 1), if_neg hj, if_pos rfl]
      exact Or.inl rfl
    · by_cases hj3 : j < s.rep.length + 1 - 1
      · rw [if_pos hj3, if_pos (by omega : j < s.del.length + 1 - 1),
          if_neg hj, if_neg hj2, if_neg hj, if_neg hj2]
        have := hx (j - 1)
        simpa [List.getD_eq_getElem?_getD] using this
      · rw [if_neg hj3, if_neg (by omega : ¬ j < s.del.length + 1 - 1)]
        exact Or.inl rfl

theorem delPhase_excl {L : Nat} (rc rr : Nat → Nat) (vocab : Nat) :
    ∀ (f : Nat) (s : SState), Wf s L → Excl s →
      Excl (delPhase rc rr vocab f s).1 := by
  intro f
  induction f with
  | zero => intro s _ hx; exact hx
  | succ f ih =>
    intro s hwf hx
    rw [delPhase]
    by_cases hl : s.ids.getLastD 0 ≠ 0
    · rw [if_pos hl]; exact hx
    · rw [if_neg hl]
      by_cases hc : (delCands s).isEmpty
      · rw [if_pos hc]; exact hx
      · have hne : delCands s ≠ [] := by
          simpa [List.isEmpty_iff] using hc
        rw [if_neg hc]
        exact ih _ (delStep_wf hwf (chooseCand_mem hne _) _)
          (delStep_excl hwf hx (chooseCand_mem hne _) _)

/-- C3: on a well-formed padded sequence (four parallel sequences of equal
length, all labels initially zero), after sampling completes there is no
index at which the rep label and the del flag are both non-zero. -/
theorem sampler_rep_del_exclusive {L : Nat} (rcA rcR rrR rcD rrD : Nat → Nat)
    (maxRep maxAdd maxDel vocab : Nat) (s : SState) (hwf : Wf s L)
    (_hrep : ∀ x ∈ s.rep, x = 0) (_hadd : ∀ x ∈ s.add, x = 0)
    (hdel : ∀ x ∈ s.del, x = 0) :
    ∀ i, ¬ ((sampleWrongTokens rcA rcR rrR rcD rrD maxRep maxAdd maxDel
        vocab s).rep.getD i 0 ≠ 0 ∧
      (sampleWrongTokens rcA rcR rrR rcD rrD maxRep maxAdd maxDel
        vocab s).del.getD i 0 ≠ 0) := by
  intro i
  have hdel1 : ∀ x ∈ (repPhase rcR rrR vocab maxRep
      (addPhase rcA maxAdd s).1).1.del, x = 0 :=
    repPhase_del_zero rcR rrR vocab maxRep _
      (addPhase_del_zero rcA maxAdd s hdel)
  have hwf2 : Wf (repPhase rcR rrR vocab maxRep (addPhase rcA maxAdd s).1).1 L :=
    repPhase_wf _ _ _ _ _ (addPhase_wf _ _ _ hwf)
  have hx : Excl (repPhase rcR rrR vocab maxRep (addPhase rcA maxAdd s).1).1 :=
    fun j => Or.inr (getD_zero_of_forall hdel1 j)
  have hfinal : Excl (sampleWrongTokens rcA rcR rrR rcD rrD maxRep maxAdd
      maxDel vocab s) :=
    delPhase_excl rcD rrD vocab maxDel _ hwf2 hx
  rcases hfinal i with h | h
  · exact fun hc => hc.1 h
  · exact fun hc => hc.2 h

/-- Witness for C3 at a concrete input. -/
theorem sampler_rep_del_exclusive_witness :
    ¬ ((sampleWrongTokens (fun _ => 0) (fun _ => 0) (fun _ => 0) (fun _ => 0)
        (fun _ => 0) 1 1 1 3 ⟨[5, 6, 0, 0], [0, 0, 0, 0], [0, 0, 0, 0],
        [0, 0, 0, 0]⟩).rep.getD 1 0 ≠ 0 ∧
      (sampleWrongTokens (fun _ => 0) (fun _ => 0) (fun _ => 0) (fun _ => 0)
        (fun _ => 0) 1 1 1 3 ⟨[5, 6, 0, 0], [0, 0, 0, 0], [0, 0, 0, 0],
        [0, 0, 0, 0]⟩).del.getD 1 0 ≠ 0) :=
  sampler_rep_del_exclusive (L := 4) (fun _ => 0) (fun _ => 0) (fun _ => 0)
    (fun _ => 0) (fun _ => 0) 1 1 1 3
    ⟨[5, 6, 0, 0], [0, 0, 0, 0], [0, 0, 0, 0], [0, 0, 0, 0]⟩
    ⟨rfl, rfl, rfl, rfl⟩ (by decide) (by decide) (by decide) 1

/-! ### Contiguity of the non-pad prefix -/

theorem getD_set_ite (l : List Nat) (k j w : Nat) :
    (l.set k w).getD j 0 = if k = j ∧ k < l.length then w else l.getD j 0 := by
  simp only [List.getD_eq_getElem?_getD, List.getElem?_set]
  by_cases h1 : k = j
  · subst h1
    by_cases h2 : k < l.length
    · simp [h2]
    · rw [if_pos rfl, if_neg h2, if_neg (fun hc => h2 hc.2),
        List.getElem?_eq_none (Nat.le_of_not_lt h2)]
  · simp [h1]

theorem getD_eraseIdx_append_zero (l : List Nat) (k j : Nat) (hk : k < l.length) :
    (l.eraseIdx k ++ [0]).getD j 0 =
      if j < k then l.getD j 0
      else if j + 1 < l.length then l.getD (j + 1) 0 else 0 := by
  have hlen : (l.eraseIdx k).length = l.length - 1 :=
    List.length_eraseIdx_of_lt hk
  simp only [List.getD_eq_getElem?_getD, List.getElem?_append, hlen]
  by_cases h1 : j < l.length - 1
  · rw [if_pos h1]
    by_cases h2 : j < k
    · rw [if_pos h2, List.getElem?_eraseIdx_of_lt _ _ _ h2]
    · rw [if_neg h2, List.getElem?_eraseIdx_of_ge _ _ _ (Nat.le_of_not_lt h2),
        if_pos (by omega)]
  · rw [if_neg h1, if_neg (by omega), if_neg (by omega)]
    by_cases h3 : j - (l.length - 1) = 0
    · rw [h3]; rfl
    · rw [show (j - (l.length - 1)) = (j - (l.length - 1) - 1) + 1 by omega]
      rfl

theorem getD_insertIdx_dropLast (l : List Nat) (k j w : Nat) (hk : k ≤ l.length) :
    ((l.insertIdx k w).dropLast).getD j 0 =
      if j < l.length then
        (if j < k then l.getD j 0 else if j = k then w else l.getD (j - 1) 0)
      else 0 := by
  have hlen : (l.insertIdx k w).length = l.length + 1 :=
    List.length_insertIdx _ _ hk
  simp only [List.getD_eq_getElem?_getD, List.getElem?_dropLast, hlen]
  have hcond : l.length + 1 - 1 = l.length := by omega
  rw [hcond]
  by_cases h1 : j < l.length
  · rw [if_pos h1, if_pos h1, getElem?_insertIdx_le _ _ _ _ hk]
    by_cases h2 : j < k
    · rw [if_pos h2, if_pos h2]
    · rw [if_neg h2, if_neg h2]
      by_cases h3 : j = k
      · rw [if_pos h3, if_pos h3]; rfl
      · rw [if_neg h3, if_neg h3]
  · rw [if_neg h1, if_neg h1]; rfl

theorem getLastD_eq_getD (l : List Nat) :
    l.getLastD 0 = l.getD (l.length - 1) 0 := by
  rw [List.getLastD_eq_getLast?, List.getLast?_eq_getElem?,
    List.getD_eq_getElem?_getD]

/-- The non-zero ids occupy exactly the prefix of length `m`. -/
def Pref (l : List Nat) (m : Nat) : Prop :=
  (∀ i, i < m → l.getD i 0 ≠ 0) ∧ (∀ i, m ≤ i → l.getD i 0 = 0)

/-- The non-zero ids occupy a contiguous prefix. -/
def Contig (l : List Nat) : Prop := ∃ m, Pref l m

theorem Pref.le_length {l : List Nat} {m : Nat} (h : Pref l m) : m ≤ l.length := by
  by_contra hc
  refine h.1 (l.length) (by omega) ?_
  rw [List.getD_eq_getElem?_getD, List.getElem?_eq_none (Nat.le_refl _)]
  rfl

theorem Pref.lt_of_ne {l : List Nat} {m i : Nat} (h : Pref l m)
    (hi : l.getD i 0 ≠ 0) : i < m := by
  by_contra hc
  exact hi (h.2 i (by omega))

theorem addStep_pref {s : SState} {m index : Nat} (hp : Pref s.ids m)
    (hi : index ∈ addCands s) : Pref (addStep s index).ids (m - 1) := by
  have hiL : index + 1 < s.ids.length := addCands_lt hi
  have hspec := addCands_spec hi
  have him : index + 1 < m := hp.lt_of_ne hspec.2.1
  have hmL : m ≤ s.ids.length := hp.le_length
  have hids : (addStep s index).ids = s.ids.eraseIdx (index + 1) ++ [0] := rfl
  constructor
  · intro j hj
    rw [hids, getD_eraseIdx_append_zero _ _ _ (by omega)]
    by_cases h1 : j < index + 1
    · rw [if_pos h1]; exact hp.1 j (by omega)
    · rw [if_neg h1, if_pos (by omega)]
      exact hp.1 (j + 1) (by omega)
  · intro j hj
    rw [hids, getD_eraseIdx_append_zero _ _ _ (by omega)]
    rw [if_neg (by omega)]
    by_cases h2 : j + 1 < s.ids.length
    · rw [if_pos h2]; exact hp.2 (j + 1) (by omega)
    · rw [if_neg h2]

theorem repStep_pref {s : SState} {m index : Nat} (hp : Pref s.ids m)
    (hi : index ∈ repCands s) (vocab r : Nat) :
    Pref (repStep s index (randint1 vocab r)).ids m := by
  have hspec := repCands_spec hi
  have him : index < m := hp.lt_of_ne hspec.1
  have hids : (repStep s index (randint1 vocab r)).ids =
      s.ids.set index (randint1 vocab r) := rfl
  constructor
  · intro j hj
    rw [hids, getD_set_ite]
    by_cases h1 : index = j ∧ index < s.ids.length
    · rw [if_pos h1]
      intro hc
      exact absurd hc (by unfold randint1; omega)
    · rw [if_neg h1]; exact hp.1 j hj
  · intro j hj
    rw [hids, getD_set_ite]
    rw [if_neg (by intro hc; omega)]
    exact hp.2 j hj

theorem delStep_pref {s : SState} {m index : Nat} (hp : Pref s.ids m)
    (hi : index ∈ delCands s) (hl : s.ids.getLastD 0 = 0) (vocab r : Nat) :
    Pref (delStep s index (randint1 vocab r)).ids (m + 1) := by
  have hiL : index < s.ids.length := delCands_lt hi
  have hspec := delCands_spec hi
  have him : index < m := hp.lt_of_ne hspec.1
  have hmL : m < s.ids.length := by
    rcases Nat.lt_or_ge m s.ids.length with h | h
    · exact h
    · exfalso
      refine hp.1 (s.ids.length - 1) (by omega) ?_
      rw [← getLastD_eq_getD]
      exact hl
  have hids : (delStep s index (randint1 vocab r)).ids =
      (s.ids.insertIdx index (randint1 vocab r)).dropLast := rfl
  constructor
  · intro j hj
    rw [hids, getD_insertIdx_dropLast _ _ _ _ (by omega), if_pos (by omega)]
    by_cases h1 : j < index
    · rw [if_pos h1]; exact hp.1 j (by omega)
    · rw [if_neg h1]
      by_cases h2 : j = index
      · rw [if_pos h2]
        intro hc
        exact absurd hc (by unfold randint1; omega)
      · rw [if_neg h2]
        exact hp.1 (j - 1) (by omega)
  · intro j hj
    rw [hids, getD_insertIdx_dropLast _ _ _ _ (by omega)]
    by_cases h1 : j < s.ids.length
    · rw [if_pos h1, if_neg (by omega), if_neg (by omega)]
      exact hp.2 (j - 1) (by omega)
    · rw [if_neg h1]

theorem addPhase_contig (rc : Nat → Nat) :
    ∀ (f : Nat) (s : SState), Contig s.ids → Contig (addPhase rc f s).1.ids := by
  intro f
  induction f with
  | zero => intro s hs; exact hs
  | succ f ih =>
    intro s hs
    rw [addPhase]
    by_cases hc : (addCands s).isEmpty
    · rw [if_pos hc]; exact hs
    · have hne : addCands s ≠ [] := by simpa [List.isEmpty_iff] using hc
      rw [if_neg hc]
      obtain ⟨m, hm⟩ := hs
      exact ih _ ⟨m - 1, addStep_pref hm (chooseCand_mem hne _)⟩

theorem repPhase_contig (rc rr : Nat → Nat) (vocab : Nat) :
    ∀ (f : Nat) (s : SState), Contig s.ids →
      Contig (repPhase rc rr vocab f s).1.ids := by
  intro f
  induction f with
  | zero => intro s hs; exact hs
  | succ f ih =>
    intro s hs
    rw [repPhase]
    by_cases hc : (repCands s).isEmpty
    · rw [if_pos hc]; exact hs
    · have hne : repCands s ≠ [] := by simpa [List.isEmpty_iff] using hc
      rw [if_neg hc]
      obtain ⟨m, hm⟩ := hs
      exact ih _ ⟨m, repStep_pref hm (chooseCand_mem hne _) _ _⟩

theorem delPhase_contig (rc rr : Nat → Nat) (vocab : Nat) :
    ∀ (f : Nat) (s : SState), Contig s.ids →
      Contig (delPhase rc rr vocab f s).1.ids := by
  intro f
  induction f with
  | zero => intro s hs; exact hs
  | succ f ih =>
    intro s hs
    rw [delPhase]
    by_cases hl : s.ids.getLastD 0 ≠ 0
    · rw [if_pos hl]; exact hs
    · rw [if_neg hl]
      by_cases hc : (delCands s).isEmpty
      · rw [if_pos hc]; exact hs
      · have hne : delCands s ≠ [] := by simpa [List.isEmpty_iff] using hc
        rw [if_neg hc]
        obtain ⟨m, hm⟩ := hs
        exact ih _ ⟨m + 1,
          delStep_pref hm (chooseCand_mem hne _) (not_not.mp hl) _ _⟩

theorem contig_iff (l : List Nat) :
    Contig l ↔ ∀ i j, i ≤ j → l.getD i 0 = 0 → l.getD j 0 = 0 := by
  constructor
  · rintro ⟨m, hm⟩ i j hij hi
    refine hm.2 j ?_
    by_contra hc
    exact (hm.1 i (by omega)) hi
  · intro h
    by_cases hz : ∃ i, l.getD i 0 = 0
    · refine ⟨Nat.find hz, ?_, ?_⟩
      · intro i hi
        exact Nat.find_min hz hi
      · intro i hi
        exact h _ i hi (Nat.find_spec hz)
    · push_neg at hz
      exact ⟨l.length, fun i _ => hz i, fun i hi => by
        rw [List.getD_eq_getElem?_getD, List.getElem?_eq_none hi]; rfl⟩

/-- C10: if the non-pad (non-zero) ids occupy a contiguous prefix of the
input sequence, then after all three phases of the noise sampler (add, rep,
del) the non-zero ids still occupy a contiguous prefix: every zero entry is
followed only by zero entries, so padding never appears interior to the
real tokens. -/
theorem sampler_preserves_contiguity (rcA rcR rrR rcD rrD : Nat → Nat)
    (maxRep maxAdd maxDel vocab : Nat) (s : SState)
    (h : ∀ i j, i ≤ j → s.ids.getD i 0 = 0 → s.ids.getD j 0 = 0) :
    ∀ i j, i ≤ j →
      (sampleWrongTokens rcA rcR rrR rcD rrD maxRep maxAdd maxDel
        vocab s).ids.getD i 0 = 0 →
      (sampleWrongTokens rcA rcR rrR rcD rrD maxRep maxAdd maxDel
        vocab s).ids.getD j 0 = 0 := by
  rw [← contig_iff]
  exact delPhase_contig _ _ _ _ _
    (repPhase_contig _ _ _ _ _
      (addPhase_contig _ _ _ ((contig_iff s.ids).mpr h)))

/-- Witness for C10 at a concrete input. -/
theorem sampler_preserves_contiguity_witness :
    (sampleWrongTokens (fun _ => 1) (fun _ => 0) (fun _ => 2) (fun _ => 1)
      (fun _ => 3) 1 1 1 5 ⟨[7, 8, 9, 0], [0, 0, 0, 0], [0, 0, 0, 0],
      [0, 0, 0, 0]⟩).ids.getD 4 0 = 0 :=
  sampler_preserves_contiguity (fun _ => 1) (fun _ => 0) (fun _ => 2)
    (fun _ => 1) (fun _ => 3) 1 1 1 5
    ⟨[7, 8, 9, 0], [0, 0, 0, 0], [0, 0, 0, 0], [0, 0, 0, 0]⟩
    (by
      intro i j hij hi
      match i, hi with
      | 3, _ =>
        have hj : 3 ≤ j := hij
        match j, hj with
        | 3, _ => rfl
        | (n + 4), _ => rfl
      | (n + 4), _ =>
        have hj : n + 4 ≤ j := hij
        match j, hj with
        | (k + 4), _ => rfl)
    3 4 (by omega) (by decide)

/-! ### The concrete rep-only scenario `ids = [5, 7, 9, 0, 0]` -/

theorem chooseCand_three (r : Nat) : chooseCand [0, 1, 2] r = r % 3 := by
  unfold chooseCand
  show [0, 1, 2].getD (r % 3) 0 = r % 3
  rcases (by omega : r % 3 = 0 ∨ r % 3 = 1 ∨ r % 3 = 2) with h | h | h <;>
    rw [h] <;> rfl

theorem c5_eval (rcA rcR rrR rcD rrD : Nat → Nat) :
    sampleWrongTokens rcA rcR rrR rcD rrD 1 0 0 100
      ⟨[5, 7, 9, 0, 0], [0, 0, 0, 0, 0], [0, 0, 0, 0, 0], [0, 0, 0, 0, 0]⟩ =
    ⟨[5, 7, 9, 0, 0].set (rcR 0 % 3) (1 + rrR 0 % 99),
      [0, 0, 0, 0, 0].set (rcR 0 % 3) ([5, 7, 9, 0, 0].getD (rcR 0 % 3) 0),
      [0, 0, 0, 0, 0], [0, 0, 0, 0, 0]⟩ := by
  unfold sampleWrongTokens
  rw [show addPhase rcA 0
      ⟨[5, 7, 9, 0, 0], [0, 0, 0, 0, 0], [0, 0, 0, 0, 0], [0, 0, 0, 0, 0]⟩ =
      (⟨[5, 7, 9, 0, 0], [0, 0, 0, 0, 0], [0, 0, 0, 0, 0], [0, 0, 0, 0, 0]⟩, 0)
    from rfl]
  rw [repPhase]
  rw [show repCands
      ⟨[5, 7, 9, 0, 0], [0, 0, 0, 0, 0], [0, 0, 0, 0, 0], [0, 0, 0, 0, 0]⟩ =
      [0, 1, 2] from rfl]
  rw [if_neg (by decide)]
  rw [chooseCand_three]
  rfl

/-- C5 counterexample: running the sampler on `ids = [5, 7, 9, 0, 0]` with
budget `(max_rep = 1, max_add = 0, max_del = 0)` and a PRNG run that picks
position 0 and draws the random replacement id 5 (`random.randint(1, 99)`
may return the original id): the unique position with `rep_labels[i]` equal
to the original id is 0, yet `ids[0]` equals the recorded label, so the
post-sampling id does not differ from it. -/
theorem c5_counterexample :
    (sampleWrongTokens (fun _ => 0) (fun _ => 0) (fun _ => 4) (fun _ => 0)
        (fun _ => 0) 1 0 0 100
        ⟨[5, 7, 9, 0, 0], [0, 0, 0, 0, 0], [0, 0, 0, 0, 0],
          [0, 0, 0, 0, 0]⟩).rep.getD 0 0 = [5, 7, 9, 0, 0].getD 0 0 ∧
    (sampleWrongTokens (fun _ => 0) (fun _ => 0) (fun _ => 4) (fun _ => 0)
        (fun _ => 0) 1 0 0 100
        ⟨[5, 7, 9, 0, 0], [0, 0, 0, 0, 0], [0, 0, 0, 0, 0],
          [0, 0, 0, 0, 0]⟩).ids.getD 0 0 =
      (sampleWrongTokens (fun _ => 0) (fun _ => 0) (fun _ => 4) (fun _ => 0)
        (fun _ => 0) 1 0 0 100
        ⟨[5, 7, 9, 0, 0], [0, 0, 0, 0, 0], [0, 0, 0, 0, 0],
          [0, 0, 0, 0, 0]⟩).rep.getD 0 0 ∧
    (∀ j ∈ [1, 2],
      (sampleWrongTokens (fun _ => 0) (fun _ => 0) (fun _ => 4) (fun _ => 0)
        (fun _ => 0) 1 0 0 100
        ⟨[5, 7, 9, 0, 0], [0, 0, 0, 0, 0], [0, 0, 0, 0, 0],
          [0, 0, 0, 0, 0]⟩).rep.getD j 0 ≠ [5, 7, 9, 0, 0].getD j 0) := by
  decide

/-- C5 (amended): running the noise sampler on `ids = [5, 7, 9, 0, 0]`
(`nonpad_seq_length = 3`, `vocab_size = 100`) with budget
`(max_rep = 1, max_add = 0, max_del = 0)` always results in exactly one
index `i ∈ {0, 1, 2}` with `rep_labels[i]` equal to the original id at that
index; at that index the post-sampling id is a random id in `[1, 99]`, which
may coincide with the recorded label (the code does not force a change). -/
theorem c5_rep_scenario (rcA rcR rrR rcD rrD : Nat → Nat) :
    ∃ i, i < 3 ∧
      (sampleWrongTokens rcA rcR rrR rcD rrD 1 0 0 100
        ⟨[5, 7, 9, 0, 0], [0, 0, 0, 0, 0], [0, 0, 0, 0, 0],
          [0, 0, 0, 0, 0]⟩).rep.getD i 0 = [5, 7, 9, 0, 0].getD i 0 ∧
      1 ≤ (sampleWrongTokens rcA rcR rrR rcD rrD 1 0 0 100
        ⟨[5, 7, 9, 0, 0], [0, 0, 0, 0, 0], [0, 0, 0, 0, 0],
          [0, 0, 0, 0, 0]⟩).ids.getD i 0 ∧
      (sampleWrongTokens rcA rcR rrR rcD rrD 1 0 0 100
        ⟨[5, 7, 9, 0, 0], [0, 0, 0, 0, 0], [0, 0, 0, 0, 0],
          [0, 0, 0, 0, 0]⟩).ids.getD i 0 ≤ 99 ∧
      ∀ j, j < 3 → j ≠ i →
        (sampleWrongTokens rcA rcR rrR rcD rrD 1 0 0 100
          ⟨[5, 7, 9, 0, 0], [0, 0, 0, 0, 0], [0, 0, 0, 0, 0],
            [0, 0, 0, 0, 0]⟩).rep.getD j 0 ≠ [5, 7, 9, 0, 0].getD j 0 := by
  rw [c5_eval]
  have hw : rrR 0 % 99 < 99 := Nat.mod_lt _ (by omega)
  have hk : rcR 0 % 3 < 3 := Nat.mod_lt _ (by omega)
  have hk5 : rcR 0 % 3 < ([0, 0, 0, 0, 0] : List Nat).length := by
    show rcR 0 % 3 < 5
    omega
  have hk5' : rcR 0 % 3 < ([5, 7, 9, 0, 0] : List Nat).length := by
    show rcR 0 % 3 < 5
    omega
  refine ⟨rcR 0 % 3, hk, ?_, ?_, ?_, ?_⟩
  · show (([0, 0, 0, 0, 0] : List Nat).set (rcR 0 % 3)
        ([5, 7, 9, 0, 0].getD (rcR 0 % 3) 0)).getD (rcR 0 % 3) 0 =
      [5, 7, 9, 0, 0].getD (rcR 0 % 3) 0
    rw [getD_set_ite, if_pos ⟨rfl, hk5⟩]
  · show 1 ≤ (([5, 7, 9, 0, 0] : List Nat).set (rcR 0 % 3)
        (1 + rrR 0 % 99)).getD (rcR 0 % 3) 0
    rw [getD_set_ite, if_pos ⟨rfl, hk5'⟩]
    omega
  · show (([5, 7, 9, 0, 0] : List Nat).set (rcR 0 % 3)
        (1 + rrR 0 % 99)).getD (rcR 0 % 3) 0 ≤ 99
    rw [getD_set_ite, if_pos ⟨rfl, hk5'⟩]
    omega
  · intro j hj hne
    show (([0, 0, 0, 0, 0] : List Nat).set (rcR 0 % 3)
        ([5, 7, 9, 0, 0].getD (rcR 0 % 3) 0)).getD j 0 ≠
      [5, 7, 9, 0, 0].getD j 0
    rw [getD_set_ite, if_neg (fun hc => hne hc.1.symm)]
    rcases (by omega : j = 0 ∨ j = 1 ∨ j = 2) with rfl | rfl | rfl <;> decide

/-! ### The per-example encoder `_convert_X` -/

/-- Modelled from the spec: `utils.truncate_segments` (in `uf/utils.py`, not
under `src/`) truncates the token sequence to fit `max_seq_length`; the
module's default `LIFO` policy drops tokens from the tail, keeping a prefix. -/
def truncateSegments (tokens : List String) (maxLen : Nat) : List String :=
  tokens.take maxLen

/-- `_convert_X`: `_input_ids = tokenizer.convert_tokens_to_ids(_input_tokens)`
followed by right-padding with `0` up to `max_seq_length`.  The external
tokenizer's per-token id lookup is the abstract parameter `tok2id`. -/
def padIds (tok2id : String → Nat) (L : Nat) (tokens : List String) : List Nat :=
  (truncateSegments tokens L).map tok2id ++
    List.replicate (L - ((truncateSegments tokens L).map tok2id).length) 0

/-- The per-example body of `_convert_X`: truncate, map to ids, right-pad;
when training, initialize the three label sequences with one `0` per input
id and run `sample_wrong_tokens` with the drawn budgets `maxRep/maxAdd/maxDel`
(the categorical draws of the budgets are abstracted as parameters); when not
training the three label lists remain empty. -/
def convertXone (tok2id : String → Nat) (L : Nat)
    (rcA rcR rrR rcD rrD : Nat → Nat) (maxRep maxAdd maxDel vocabSize : Nat)
    (tokens : List String) (isTraining : Bool) : SState :=
  if isTraining then
    sampleWrongTokens rcA rcR rrR rcD rrD maxRep maxAdd maxDel vocabSize
      ⟨padIds tok2id L tokens,
       (padIds tok2id L tokens).map fun _ => 0,
       (padIds tok2id L tokens).map fun _ => 0,
       (padIds tok2id L tokens).map fun _ => 0⟩
  else ⟨padIds tok2id L tokens, [], [], []⟩

theorem padIds_length (tok2id : String → Nat) (L : Nat) (tokens : List String) :
    (padIds tok2id L tokens).length = L := by
  have h : ((truncateSegments tokens L).map tok2id).length ≤ L := by
    simp [truncateSegments]
  simp only [padIds, List.length_append, List.length_replicate]
  omega

/-- C4 counterexample: in non-training mode the encoder returns empty label
sequences, not sequences of length `max_seq_length` (here 3). -/
theorem encoder_label_length_counterexample :
    (convertXone (fun _ => 1) 3 (fun _ => 0) (fun _ => 0) (fun _ => 0)
        (fun _ => 0) (fun _ => 0) 0 0 0 2 ["a"] false).ids.length = 3 ∧
    (convertXone (fun _ => 1) 3 (fun _ => 0) (fun _ => 0) (fun _ => 0)
        (fun _ => 0) (fun _ => 0) 0 0 0 2 ["a"] false).rep.length ≠ 3 ∧
    (convertXone (fun _ => 1) 3 (fun _ => 0) (fun _ => 0) (fun _ => 0)
        (fun _ => 0) (fun _ => 0) 0 0 0 2 ["a"] false).rep.length = 0 := by
  refine ⟨rfl, ?_, rfl⟩
  decide

/-- C4 (amended): the padded id sequence always has length exactly
`max_seq_length`; in training mode all three label sequences also have
length `max_seq_length` — in particular the noise sampler preserves the
length of all four parallel sequences it mutates — while in non-training
mode the returned label sequences are empty. -/
theorem encoder_length_invariant (tok2id : String → Nat) (L : Nat)
    (rcA rcR rrR rcD rrD : Nat → Nat) (maxRep maxAdd maxDel vocabSize : Nat)
    (tokens : List String) :
    (∀ s : SState, Wf s L →
      Wf (sampleWrongTokens rcA rcR rrR rcD rrD maxRep maxAdd maxDel
        vocabSize s) L) ∧
    (convertXone tok2id L rcA rcR rrR rcD rrD maxRep maxAdd maxDel vocabSize
      tokens true).ids.length = L ∧
    (convertXone tok2id L rcA rcR rrR rcD rrD maxRep maxAdd maxDel vocabSize
      tokens true).rep.length = L ∧
    (convertXone tok2id L rcA rcR rrR rcD rrD maxRep maxAdd maxDel vocabSize
      tokens true).add.length = L ∧
    (convertXone tok2id L rcA rcR rrR rcD rrD maxRep maxAdd maxDel vocabSize
      tokens true).del.length = L ∧
    (convertXone tok2id L rcA rcR rrR rcD rrD maxRep maxAdd maxDel vocabSize
      tokens false).ids.length = L ∧
    (convertXone tok2id L rcA rcR rrR rcD rrD maxRep maxAdd maxDel vocabSize
      tokens false).rep = [] ∧
    (convertXone tok2id L rcA rcR rrR rcD rrD maxRep maxAdd maxDel vocabSize
      tokens false).add = [] ∧
    (convertXone tok2id L rcA rcR rrR rcD rrD maxRep maxAdd maxDel vocabSize
      tokens false).del = [] := by
  have hL := padIds_length tok2id L tokens
  have hwf : Wf ⟨padIds tok2id L tokens,
      (padIds tok2id L tokens).map fun _ => 0,
      (padIds tok2id L tokens).map fun _ => 0,
      (padIds tok2id L tokens).map fun _ => 0⟩ L :=
    ⟨hL, by simpa using hL, by simpa using hL, by simpa using hL⟩
  have hs := sampleWrongTokens_wf rcA rcR rrR rcD rrD maxRep maxAdd maxDel
    vocabSize hwf
  exact ⟨fun s h => sampleWrongTokens_wf _ _ _ _ _ _ _ _ _ h,
    hs.1, hs.2.1, hs.2.2.1, hs.2.2.2, hL, rfl, rfl, rfl⟩

/-- Witness for C4 at a concrete input: the sampler-preservation conjunct
applied to a concrete well-formed state. -/
theorem encoder_length_invariant_witness :
    Wf (sampleWrongTokens (fun _ => 0) (fun _ => 0) (fun _ => 1) (fun _ => 0)
      (fun _ => 2) 1 1 1 4 ⟨[5, 6, 0], [0, 0, 0], [0, 0, 0], [0, 0, 0]⟩) 3 :=
  (encoder_length_invariant (fun _ => 1) 3 (fun _ => 0) (fun _ => 0)
    (fun _ => 1) (fun _ => 0) (fun _ => 2) 1 1 1 4 ["a"]).1
    ⟨[5, 6, 0], [0, 0, 0], [0, 0, 0], [0, 0, 0]⟩ ⟨rfl, rfl, rfl, rfl⟩

/-! ### The probability check of `RecBERTLM.__init__` -/

/-- `RecBERTLM.__init__`: `all_prob = rep_prob + add_prob + del_prob`;
`assert 0 < all_prob < 1` (a failing assertion aborts construction, modelled
as `none`); on success each stored probability is divided by `all_prob`. -/
def initProbs (repP addP delP : ℚ) : Option (ℚ × ℚ × ℚ) :=
  if 0 < repP + addP + delP ∧ repP + addP + delP < 1 then
    some (repP / (repP + addP + delP), addP / (repP + addP + delP),
      delP / (repP + addP + delP))
  else none

/-- C8 counterexample: a triple with a negative component whose sum lies in
(0,1) is accepted by the constructor — no error is raised and the stored
(normalized) rep probability is negative. -/
theorem initProbs_counterexample :
    initProbs (-(1 : ℚ)/10) (3/10) (1/2) =
      some (-(1 : ℚ)/7, 3/7, 5/7) := by
  rw [initProbs, if_pos (by norm_num)]
  norm_num

/-- C8 (amended): construction raises (an assertion failure) exactly when the
sum of the three raw probabilities lies outside the open interval (0, 1);
individual components are not checked for negativity.  For every triple with
each component ≥ 0 and sum in (0, 1), construction succeeds and the stored
probabilities are non-negative and sum to 1. -/
theorem initProbs_spec (r a d : ℚ) :
    (initProbs r a d = none ↔ ¬ (0 < r + a + d ∧ r + a + d < 1)) ∧
    (0 ≤ r → 0 ≤ a → 0 ≤ d → 0 < r + a + d → r + a + d < 1 →
      initProbs r a d =
        some (r / (r + a + d), a / (r + a + d), d / (r + a + d)) ∧
      r / (r + a + d) + a / (r + a + d) + d / (r + a + d) = 1 ∧
      0 ≤ r / (r + a + d) ∧ 0 ≤ a / (r + a + d) ∧ 0 ≤ d / (r + a + d)) := by
  constructor
  · constructor
    · intro h hc
      rw [initProbs, if_pos hc] at h
      exact Option.noConfusion h
    · intro hc
      rw [initProbs, if_neg hc]
  · intro hr ha hd h1 h2
    refine ⟨by rw [initProbs, if_pos ⟨h1, h2⟩], ?_, ?_, ?_, ?_⟩
    · rw [div_add_div_same, div_add_div_same, div_self (ne_of_gt h1)]
    · exact div_nonneg hr (le_of_lt h1)
    · exact div_nonneg ha (le_of_lt h1)
    · exact div_nonneg hd (le_of_lt h1)

/-- Witness for C8 at a concrete valid triple. -/
theorem initProbs_spec_witness :
    initProbs (1/10 : ℚ) (1/5) (3/10) =
      some ((1/10 : ℚ) / (1/10 + 1/5 + 3/10), (1/5 : ℚ) / (1/10 + 1/5 + 3/10),
        (3/10 : ℚ) / (1/10 + 1/5 + 3/10)) ∧
    (1/10 : ℚ) / (1/10 + 1/5 + 3/10) + (1/5 : ℚ) / (1/10 + 1/5 + 3/10) +
      (3/10 : ℚ) / (1/10 + 1/5 + 3/10) = 1 ∧
    (0 : ℚ) ≤ (1/10 : ℚ) / (1/10 + 1/5 + 3/10) ∧
    (0 : ℚ) ≤ (1/5 : ℚ) / (1/10 + 1/5 + 3/10) ∧
    (0 : ℚ) ≤ (3/10 : ℚ) / (1/10 + 1/5 + 3/10) :=
  (initProbs_spec (1/10) (1/5) (3/10)).2 (by norm_num) (by norm_num)
    (by norm_num) (by norm_num) (by norm_num)

/-! ### Input-shape resolution `_convert_x` -/

/-- A Python value passed as one example: either a string or a list. -/
inductive PyVal where
  | pyStr (s : String)
  | pyList (xs : List PyVal)

/-- Python `x[0]` for a string or list value: strings index to 1-character
strings; an out-of-range or unsupported index raises (modelled as `none`,
caught by the `except` clause of `_convert_x`). -/
def firstItem : PyVal → Option PyVal
  | .pyStr s => s.data.head?.map fun c => .pyStr (String.mk [c])
  | .pyList xs => xs.head?

/-- `_convert_x`: untokenized mode accepts exactly a single string (tokenized
by the external tokenizer); tokenized mode evaluates `x[0]` (exceptions are
caught and re-raised as the "Wrong input format" `ValueError`) and accepts
`x` iff `x[0]` is a string; every other shape falls through to the
"only supports single sentence inputs" `ValueError`. -/
def convert_x (tokenize : String → List String) (x : PyVal) (tokenized : Bool) :
    Except String PyVal :=
  if !tokenized then
    match x with
    | .pyStr s => .ok (.pyList ((tokenize s).map .pyStr))
    | _ => .error "only supports single sentence inputs"
  else
    match firstItem x with
    | none => .error "Wrong input format"
    | some (.pyStr _) => .ok x
    | some _ => .error "only supports single sentence inputs"

/-- The shapes accepted in tokenized mode: a sequence whose first element is
a string (for a plain Python string, any non-empty string, since `s[0]` is a
1-character string). -/
def headIsStr : PyVal → Prop
  | .pyStr s => s ≠ ""
  | .pyList xs => ∃ s t, xs = .pyStr s :: t

/-- C9: the multi-segment tokenized input `[["a","b"],["c"]]` is rejected
with an InvalidInput (`ValueError`) error; a single string in untokenized
mode and a flat list of token strings in tokenized mode are accepted; and
every example whose shape is neither of those (untokenized non-strings;
tokenized values whose first element is not a string) is rejected. -/
theorem convert_x_shape (tokenize : String → List String) :
    (convert_x tokenize
      (.pyList [.pyList [.pyStr "a", .pyStr "b"], .pyList [.pyStr "c"]])
      true).isOk = false ∧
    (∀ s, (convert_x tokenize (.pyStr s) false).isOk = true) ∧
    (∀ h t, (convert_x tokenize (.pyList (.pyStr h :: t)) true).isOk = true) ∧
    (∀ x : PyVal, (∀ s, x ≠ .pyStr s) →
      (convert_x tokenize x false).isOk = false) ∧
    (∀ x : PyVal, ¬ headIsStr x → (convert_x tokenize x true).isOk = false) := by
  refine ⟨rfl, fun s => rfl, fun h t => rfl, ?_, ?_⟩
  · intro x hx
    cases x with
    | pyStr s => exact absurd rfl (hx s)
    | pyList xs => rfl
  · intro x hnh
    cases x with
    | pyStr s =>
      have hs : s = "" := by
        by_contra hc
        exact hnh hc
      subst hs
      rfl
    | pyList xs =>
      cases xs with
      | nil => rfl
      | cons y ys =>
        cases y with
        | pyStr s => exact absurd ⟨s, ys, rfl⟩ hnh
        | pyList z => rfl

/-- Witness for C9: the hypothesis-bearing rejection conjuncts applied to the
concrete malformed example `[]`. -/
theorem convert_x_shape_witness :
    (convert_x (fun s => [s]) (.pyList []) false).isOk = false ∧
    (convert_x (fun s => [s]) (.pyList []) true).isOk = false :=
  ⟨(convert_x_shape (fun s => [s])).2.2.2.1 (.pyList [])
      (fun s h => PyVal.noConfusion h),
   (convert_x_shape (fun s => [s])).2.2.2.2 (.pyList [])
      (fun hc => by
        rcases hc with ⟨s, t, ht⟩
        exact List.noConfusion ht)⟩

/-! ### Answer reconstruction (`_get_predict_outputs`) -/

/-- `'{rep:%s->%s}' % (old, new)` -/
def annRep (old new : String) : String :=
  "\x7brep:" ++ old ++ "->" ++ new ++ "\x7d"

/-- `'{del:%s}' % old` -/
def annDel (old : String) : String := "\x7bdel:" ++ old ++ "\x7d"

/-- `'{add:%s}' % new` -/
def annAdd (new : String) : String := "\x7badd:" ++ new ++ "\x7d"

/-- State of the token-mode reconstruction loop: the output token list and
the running insertion offset `n`. -/
structure TokRecon where
  toks : List String
  n : Nat

/-- One iteration of the token-mode loop of `_get_predict_outputs`
(`if self._rep_prob > 0 and _rep_preds[i] != 0: ... elif self._del_prob > 0
and _del_preds[i] != 0: ...` then, independently, the add check).  The
external `tokenizer.convert_ids_to_tokens` is the abstract parameter
`id2tok`. -/
def reconTokStep (rp ap dp : ℚ) (id2tok : Nat → String)
    (repPreds addPreds delPreds : List Nat) (st : TokRecon) (i : Nat) :
    TokRecon :=
  let st1 : TokRecon :=
    if 0 < rp ∧ repPreds.getD i 0 ≠ 0 then
      { st with toks := (st.toks.set (i + st.n)
          (annRep (st.toks.getD (i + st.n) "") (id2tok (repPreds.getD i 0)))) }
    else if 0 < dp ∧ delPreds.getD i 0 ≠ 0 then
      { st with toks := (st.toks.set (i + st.n)
          (annDel (st.toks.getD (i + st.n) ""))) }
    else st
  if 0 < ap ∧ addPreds.getD i 0 ≠ 0 then
    { toks := (st1.toks.insertIdx (i + 1 + st1.n)
        (annAdd (id2tok (addPreds.getD i 0)))), n := st1.n + 1 }
  else st1

/-- The token-mode reconstruction loop: `for i in range(_input_length)`,
starting from a copy of the input tokens and `n = 0`. -/
def reconTokens (rp ap dp : ℚ) (id2tok : Nat → String)
    (repPreds addPreds delPreds : List Nat) (inputLen : Nat)
    (toks : List String) : List String :=
  ((List.range inputLen).foldl
    (reconTokStep rp ap dp id2tok repPreds addPreds delPreds) ⟨toks, 0⟩).toks

/-- The token-mode walk as the claim words it (amended with the probability
guards of the source): walk positions with offset `n`; at `i + n`, if the rep
prediction is non-zero (and `rep_prob > 0`) replace the token with
`{rep:old->new}`; else if the del prediction is non-zero (and `del_prob > 0`)
wrap it as `{del:old}`; independently, if the add prediction is non-zero (and
`add_prob > 0`) insert `{add:new}` immediately after the current position and
increment `n`. -/
def reconTokensSpec (rp ap dp : ℚ) (id2tok : Nat → String)
    (repPreds addPreds delPreds : List Nat) :
    Nat → Nat → Nat → List String → List String
  | 0, _, _, out => out
  | k + 1, i, n, out =>
    let out1 := if 0 < rp ∧ repPreds.getD i 0 ≠ 0 then
        out.set (i + n) (annRep (out.getD (i + n) "") (id2tok (repPreds.getD i 0)))
      else if 0 < dp ∧ delPreds.getD i 0 ≠ 0 then
        out.set (i + n) (annDel (out.getD (i + n) ""))
      else out
    if 0 < ap ∧ addPreds.getD i 0 ≠ 0 then
      reconTokensSpec rp ap dp id2tok repPreds addPreds delPreds k (i + 1)
        (n + 1) (out1.insertIdx (i + 1 + n) (annAdd (id2tok (addPreds.getD i 0))))
    else
      reconTokensSpec rp ap dp id2tok repPreds addPreds delPreds k (i + 1) n out1

/-- The token-mode walk exactly as the claim words it, with no probability
guards.  Used only to exhibit where the claim and the code diverge. -/
def reconTokensClaim (id2tok : Nat → String)
    (repPreds addPreds delPreds : List Nat) :
    Nat → Nat → Nat → List String → List String
  | 0, _, _, out => out
  | k + 1, i, n, out =>
    let out1 := if repPreds.getD i 0 ≠ 0 then
        out.set (i + n) (annRep (out.getD (i + n) "") (id2tok (repPreds.getD i 0)))
      else if delPreds.getD i 0 ≠ 0 then
        out.set (i + n) (annDel (out.getD (i + n) ""))
      else out
    if addPreds.getD i 0 ≠ 0 then
      reconTokensClaim id2tok repPreds addPreds delPreds k (i + 1) (n + 1)
        (out1.insertIdx (i + 1 + n) (annAdd (id2tok (addPreds.getD i 0))))
    else
      reconTokensClaim id2tok repPreds addPreds delPreds k (i + 1) n out1

/-- C7 counterexample: with `rep_prob = 0` (a legal configuration — the raw
probability triple (0, 0.05, 0.05) passes the constructor check) and a
non-zero rep prediction at position 0, the source's guarded branch leaves the
token untouched, while the claim's unguarded description replaces it with a
`{rep:...}` annotation. -/
theorem recon_token_guard_counterexample :
    reconTokens 0 (1/2) (1/2) (fun _ => "x") [7] [0] [0] 1 ["a"] = ["a"] ∧
    reconTokensClaim (fun _ => "x") [7] [0] [0] 1 0 0 ["a"] =
      [annRep "a" "x"] ∧
    (["a"] : List String) ≠ [annRep "a" "x"] := by
  refine ⟨?_, ?_, by decide⟩
  · show (reconTokStep 0 (1/2) (1/2) (fun _ => "x") [7] [0] [0]
        ⟨["a"], 0⟩ 0).toks = ["a"]
    simp only [reconTokStep]
    rw [if_neg (by norm_num), if_neg (by norm_num), if_neg (by norm_num)]
  · rw [reconTokensClaim, if_neg (by decide)]
    show (if ([7] : List Nat).getD 0 0 ≠ 0 then
        ["a"].set (0 + 0) (annRep (["a"].getD (0 + 0) "")
          ((fun _ => "x") (([7] : List Nat).getD 0 0)))
      else if ([0] : List Nat).getD 0 0 ≠ 0 then
        ["a"].set (0 + 0) (annDel (["a"].getD (0 + 0) ""))
      else ["a"]) = [annRep "a" "x"]
    rw [if_pos (by decide)]
    rfl

/-- C7 (amended): the token-mode reconstruction loop of the source computes
exactly the position-by-position walk described by the spec, provided each
edit type's annotation is additionally guarded by its probability being
positive: at `i + n` a non-zero rep prediction replaces the token with
`{rep:old->new}`, else a non-zero del prediction wraps it as `{del:old}`,
and independently a non-zero add prediction inserts `{add:new}` right after
the current position and increments `n`. -/
theorem reconTokens_eq_spec (rp ap dp : ℚ) (id2tok : Nat → String)
    (repPreds addPreds delPreds : List Nat) (inputLen : Nat)
    (toks : List String) :
    reconTokens rp ap dp id2tok repPreds addPreds delPreds inputLen toks =
      reconTokensSpec rp ap dp id2tok repPreds addPreds delPreds inputLen 0 0
        toks := by
  have key : ∀ (k s : Nat) (st : TokRecon),
      ((List.range' s k).foldl
        (reconTokStep rp ap dp id2tok repPreds addPreds delPreds) st).toks =
      reconTokensSpec rp ap dp id2tok repPreds addPreds delPreds k s st.n
        st.toks := by
    intro k
    induction k with
    | zero => intro s st; rfl
    | succ k ih =>
      intro s st
      rw [List.range'_succ, List.foldl_cons, ih]
      rw [reconTokensSpec]
      simp only [reconTokStep]
      split_ifs <;> rfl
  rw [reconTokens, List.range_eq_range']
  exact key inputLen 0 ⟨toks, 0⟩

/-- State of the text-mode reconstruction loop: the character buffer and the
running character-offset delta `n` (a Python int). -/
structure TextRecon where
  text : List Char
  n : Int

/-- One iteration of the untokenized (text-mode) loop of
`_get_predict_outputs`: locate token `i`'s character span via the alignment
mapping shifted by the running offset `n`, splice a `{rep:...}`/`{del:...}`
annotation over the span, and independently insert `{add:...}` right after
the span's end; `##` sub-word markers are stripped from predicted tokens.
The alignment arrays of `utils.align_tokens_with_text` are the abstract
parameters `mapStart`/`mapEnd`. -/
def reconTextStep (rp ap dp : ℚ) (id2tok : Nat → String)
    (mapStart mapEnd : List Nat) (repPreds addPreds delPreds : List Nat)
    (st : TextRecon) (i : Nat) : TextRecon :=
  let st1 : TextRecon :=
    if 0 < rp ∧ repPreds.getD i 0 ≠ 0 then
      let sPtr := ((mapStart.getD i 0 : Int) + st.n).toNat
      let ePtr := ((mapEnd.getD i 0 : Int) + st.n).toNat
      let replaced := (st.text.drop sPtr).take (ePtr - sPtr)
      let tok := (annRep (String.mk replaced)
        ((id2tok (repPreds.getD i 0)).replace "##" "")).data
      { text := st.text.take sPtr ++ tok ++ st.text.drop ePtr,
        n := st.n + (tok.length : Int) - (replaced.length : Int) }
    else if 0 < dp ∧ delPreds.getD i 0 ≠ 0 then
      let sPtr := ((mapStart.getD i 0 : Int) + st.n).toNat
      let ePtr := ((mapEnd.getD i 0 : Int) + st.n).toNat
      let delTok := (st.text.drop sPtr).take (ePtr - sPtr)
      let tok := (annDel (String.mk delTok)).data
      { text := st.text.take sPtr ++ tok ++ st.text.drop ePtr,
        n := st.n + (tok.length : Int) - (delTok.length : Int) }
    else st
  if 0 < ap ∧ addPreds.getD i 0 ≠ 0 then
    let tok := (annAdd ((id2tok (addPreds.getD i 0)).replace "##" "")).data
    let ptr := ((mapEnd.getD i 0 : Int) + st1.n).toNat
    { text := st1.text.take ptr ++ tok ++ st1.text.drop ptr,
      n := st1.n + (tok.length : Int) }
  else st1

/-- The text-mode reconstruction loop: `for i in range(_input_length)`,
starting from the original example text and `n = 0`. -/
def reconText (rp ap dp : ℚ) (id2tok : Nat → String)
    (mapStart mapEnd : List Nat) (repPreds addPreds delPreds : List Nat)
    (inputLen : Nat) (text : List Char) : List Char :=
  ((List.range inputLen).foldl
    (reconTextStep rp ap dp id2tok mapStart mapEnd repPreds addPreds delPreds)
    ⟨text, 0⟩).text

/-- C6: reconstructing an untokenized example with all prediction sequences
(rep, add, del) equal to zero everywhere leaves the original text unchanged
(round-trip identity: no branch of the loop fires, whatever the alignment
mapping produced by the encoding step). -/
theorem recon_roundtrip_identity (rp ap dp : ℚ) (id2tok : Nat → String)
    (mapStart mapEnd : List Nat) (repPreds addPreds delPreds : List Nat)
    (inputLen : Nat) (text : List Char)
    (hrp : ∀ i, repPreds.getD i 0 = 0) (hap : ∀ i, addPreds.getD i 0 = 0)
    (hdp : ∀ i, delPreds.getD i 0 = 0) :
    reconText rp ap dp id2tok mapStart mapEnd repPreds addPreds delPreds
      inputLen text = text := by
  have hstep : ∀ (st : TextRecon) (i : Nat),
      reconTextStep rp ap dp id2tok mapStart mapEnd repPreds addPreds delPreds
        st i = st := by
    intro st i
    rw [reconTextStep]
    rw [if_neg (fun hc => hc.2 (hap i)), if_neg (fun hc => hc.2 (hrp i)),
      if_neg (fun hc => hc.2 (hdp i))]
  have hfold : ∀ (l : List Nat) (st : TextRecon),
      l.foldl (reconTextStep rp ap dp id2tok mapStart mapEnd repPreds addPreds
        delPreds) st = st := by
    intro l
    induction l with
    | nil => intro st; rfl
    | cons x xs ih =>
      intro st
      rw [List.foldl_cons, hstep]
      exact ih st
  rw [reconText, hfold]

/-- Witness for C6 at a concrete input. -/
theorem recon_roundtrip_identity_witness :
    reconText 1 1 1 (fun _ => "x") [0, 2] [1, 3] [] [] [] 2
      ('a' :: 'b' :: []) = 'a' :: 'b' :: [] :=
  recon_roundtrip_identity 1 1 1 (fun _ => "x") [0, 2] [1, 3] [] [] [] 2
    ('a' :: 'b' :: []) (fun _ => rfl) (fun _ => rfl) (fun _ => rfl)

/-! ### Bucketed parallel conversion (`_parallel_convert`) -/

/-- One round-robin bucket of `_parallel_convert`
(`for i in range(n_inputs): buckets[i % n_buckets].append(X[i])`):
bucket `b` collects, in order, the elements whose index is congruent to `b`
modulo `n`. -/
def bucketOf {α : Type} (xs : List α) (n b : Nat) : List α :=
  ((List.range xs.length).filter fun i => i % n == b).filterMap fun i => xs[i]?

/-- All `n` round-robin buckets, in bucket-index order. -/
def assignBuckets {α : Type} (xs : List α) (n : Nat) : List (List α) :=
  (List.range n).map (bucketOf xs n)

/-- `n_buckets = max(min(n_inputs, NUM_PROCESSES), 1)`. -/
def nBuckets (nInputs nWorkers : Nat) : Nat := max (min nInputs nWorkers) 1

/-- Workers receive `zip(range(n_buckets), ..., buckets, ...)` and each
returns `(bucket_id, data)`; the per-bucket sequential conversion of one
output field is abstracted as the elementwise encoding `enc`. -/
def taggedOutputs {α β : Type} (enc : α → β) (xs : List α) (n : Nat) :
    List (Nat × List β) :=
  (List.range n).map fun b => (b, (bucketOf xs n b).map enc)

/-- `data_buckets.sort(key=lambda x: x[0])`: sort the worker outputs by
bucket index. -/
def sortBuckets {β : Type} (l : List (Nat × List β)) : List (Nat × List β) :=
  l.mergeSort fun a b => decide (a.1 ≤ b.1)

/-- Modelled from the spec: `utils.transform` (in `uf/utils.py`, not under
`src/`) merges the per-bucket output columns using the inverse of the
round-robin assignment — output position `i` equals bucket
`(i mod n_buckets)`'s element at local offset `(i div n_buckets)`. -/
def mergeBuckets {β : Type} (bs : List (List β)) (total : Nat) (d : β) :
    List β :=
  (List.range total).map fun i =>
    (bs.getD (i % bs.length) []).getD (i / bs.length) d

theorem filter_range_mod_small {n b : Nat} (hb : b < n) :
    ∀ L, L ≤ n → (List.range L).filter (fun i => i % n == b) =
      if b < L then [b] else []
  | 0, _ => by simp
  | L + 1, h => by
    rw [List.range_succ, List.filter_append,
      filter_range_mod_small hb L (by omega)]
    have hL : L % n = L := Nat.mod_eq_of_lt (by omega)
    have hsing : List.filter (fun i => i % n == b) [L] =
        if L = b then [L] else [] := by
      simp only [List.filter_cons, List.filter_nil, hL]
      by_cases hLb : L = b
      · rw [if_pos hLb, if_pos (by simpa using hLb)]
      · rw [if_neg hLb, if_neg (by simpa using hLb)]
    rw [hsing]
    by_cases h1 : b < L
    · rw [if_pos h1, if_neg (by omega), if_pos (by omega), List.append_nil]
    · rw [if_neg h1]
      by_cases h2 : L = b
      · rw [if_pos h2, if_pos (by omega), h2, List.nil_append]
      · rw [if_neg h2, if_neg (by omega), List.append_nil]

theorem filter_range_mod_split {n b : Nat} (hb : b < n) {L : Nat}
    (hL : n ≤ L) :
    (List.range L).filter (fun i => i % n == b) =
      b :: ((List.range (L - n)).filter (fun i => i % n == b)).map (n + ·) := by
  conv_lhs => rw [show L = n + (L - n) by omega, List.range_add]
  rw [List.filter_append, filter_range_mod_small hb n (Nat.le_refl n),
    if_pos hb, List.filter_map]
  have hcomp : (fun i => i % n == b) ∘ (n + ·) = fun i => i % n == b := by
    funext i
    simp [Function.comp, Nat.add_mod_left]
  rw [hcomp, List.singleton_append]

theorem bucketOf_split {α : Type} {n b : Nat} (_hn : 0 < n) (hb : b < n)
    (xs : List α) :
    bucketOf xs n b = xs[b]?.toList ++ bucketOf (xs.drop n) n b := by
  rcases Nat.lt_or_ge n xs.length with hL | hL
  case inr =>
    rw [bucketOf, filter_range_mod_small hb _ hL,
      List.drop_eq_nil_of_le hL]
    by_cases hbL : b < xs.length
    · rw [if_pos hbL]
      simp [List.getElem?_eq_getElem hbL, bucketOf]
    · rw [if_neg hbL]
      simp [List.getElem?_eq_none (Nat.le_of_not_lt hbL), bucketOf]
  case inl =>
    rw [bucketOf, filter_range_mod_split hb (Nat.le_of_lt hL)]
    have hbL : b < xs.length := by omega
    rw [List.filterMap_cons]
    simp only [List.getElem?_eq_getElem hbL, Option.toList_some]
    congr 1
    rw [List.filterMap_map, bucketOf, List.length_drop]
    congr 1
    funext i
    simp [Function.comp, List.getElem?_drop]

theorem getD_map_range {β : Type} (g : Nat → β) {n k : Nat} (hk : k < n)
    (d : β) : ((List.range n).map g).getD k d = g k := by
  rw [List.getD_eq_getElem?_getD, List.getElem?_map, List.getElem?_range hk]
  rfl

theorem bucketOf_getD {β : Type} {n : Nat} (hn : 0 < n) (d : β) :
    ∀ (i : Nat) (xs : List β), i < xs.length →
      (bucketOf xs n (i % n)).getD (i / n) d = xs.getD i d := by
  intro i
  induction i using Nat.strong_induction_on with
  | _ i ih =>
    intro xs hi
    rcases Nat.lt_or_ge i n with h | h
    · rw [Nat.mod_eq_of_lt h, Nat.div_eq_of_lt h, bucketOf_split hn h,
        List.getElem?_eq_getElem hi]
      simp [List.getElem?_eq_getElem hi]
    · have hmod : i % n = (i - n) % n := by
        conv_lhs => rw [show i = (i - n) + n by omega]
        rw [Nat.add_mod_right]
      have hdiv : i / n = (i - n) / n + 1 := by
        conv_lhs => rw [show i = (i - n) + n by omega]
        rw [Nat.add_div_right _ hn]
      have hmn : (i - n) % n < n := Nat.mod_lt _ hn
      have hlt : (i - n) % n < xs.length := by omega
      rw [hmod, hdiv, bucketOf_split hn hmn, List.getElem?_eq_getElem hlt]
      show (bucketOf (xs.drop n) n ((i - n) % n)).getD ((i - n) / n) d =
        xs.getD i d
      rw [ih (i - n) (by omega) (xs.drop n)
        (by rw [List.length_drop]; omega)]
      rw [List.getD_eq_getElem?_getD, List.getElem?_drop,
        show n + (i - n) = i by omega, ← List.getD_eq_getElem?_getD]

theorem map_range_eq {β : Type} {n : Nat} (f : Nat → β) (xs : List β)
    (d : β) (h : xs.length = n) (hf : ∀ i, i < n → f i = xs.getD i d) :
    (List.range n).map f = xs := by
  apply List.ext_getElem
  · simp [h]
  · intro i h1 h2
    simp only [List.getElem_map, List.getElem_range]
    have hi : i < n := by simpa using h1
    rw [hf i hi, List.getD_eq_getElem?_getD, List.getElem?_eq_getElem h2]
    rfl

theorem merge_assign {β : Type} {n : Nat} (hn : 0 < n) (d : β)
    (xs : List β) :
    mergeBuckets (assignBuckets xs n) xs.length d = xs := by
  have hblen : (assignBuckets xs n).length = n := by
    simp [assignBuckets]
  rw [mergeBuckets]
  simp only [hblen]
  apply map_range_eq _ _ d rfl
  intro i hi
  simp only [assignBuckets]
  rw [getD_map_range (bucketOf xs n) (Nat.mod_lt _ hn) [],
    bucketOf_getD hn d i xs hi]

theorem sortBuckets_eq_of_perm {β : Type} {ws tagged : List (Nat × List β)}
    (hperm : ws.Perm tagged)
    (hsorted : tagged.Pairwise fun a b => a.1 < b.1) :
    sortBuckets ws = tagged := by
  have hperm2 : (sortBuckets ws).Perm tagged :=
    (List.mergeSort_perm ws _).trans hperm
  have hpw : (sortBuckets ws).Pairwise fun a b => decide (a.1 ≤ b.1) = true :=
    List.sorted_mergeSort
      (fun a b c hab hbc => by
        simp only [decide_eq_true_eq] at *
        omega)
      (fun a b => by
        simp only [Bool.or_eq_true, decide_eq_true_eq]
        omega)
      ws
  have hne : tagged.Pairwise fun a b => a.1 ≠ b.1 :=
    hsorted.imp fun h => Nat.ne_of_lt h
  have hne2 : (sortBuckets ws).Pairwise fun a b => a.1 ≠ b.1 :=
    (hperm2.pairwise_iff fun h heq => h heq.symm).mpr hne
  have hlt : (sortBuckets ws).Pairwise fun a b => a.1 < b.1 := by
    have hand := hpw.and hne2
    exact hand.imp fun h => by
      have h1 := of_decide_eq_true h.1
      have h2 := h.2
      omega
  haveI : IsAntisymm (Nat × List β) (fun a b => a.1 < b.1) :=
    ⟨fun a b h1 h2 => absurd (Nat.lt_trans h1 h2) (Nat.lt_irrefl _)⟩
  exact List.eq_of_perm_of_sorted hperm2 hlt hsorted

theorem taggedOutputs_pairwise {α β : Type} (enc : α → β) (xs : List α)
    (n : Nat) :
    (taggedOutputs enc xs n).Pairwise fun a b => a.1 < b.1 := by
  rw [taggedOutputs, List.pairwise_map]
  exact List.pairwise_lt_range n

theorem bucketOf_map {α β : Type} (enc : α → β) (xs : List α) (n b : Nat) :
    (bucketOf xs n b).map enc = bucketOf (xs.map enc) n b := by
  rw [bucketOf, bucketOf, List.length_map, List.map_filterMap]
  congr 1
  funext i
  rw [List.getElem?_map]

theorem taggedOutputs_map_snd {α β : Type} (enc : α → β) (xs : List α)
    (n : Nat) :
    (taggedOutputs enc xs n).map Prod.snd = assignBuckets (xs.map enc) n := by
  rw [taggedOutputs, assignBuckets, List.map_map]
  refine List.map_congr_left ?_
  intro b _
  exact bucketOf_map enc xs n b

/-- C1: in `_parallel_convert`, example `i` is assigned to bucket
`i mod n_buckets` with `n_buckets = max(min(n_inputs, n_workers), 1)`; after
the bucket workers return in an arbitrary order (any permutation of the
tagged outputs), the outputs are sorted by bucket index and each output
field's per-bucket columns are merged so that output position `i` equals
bucket `(i mod n_buckets)`'s element at local offset `(i div n_buckets)` —
the merge inverts the round-robin assignment and restores the original
input order of the encoded examples. -/
theorem parallel_convert_restores_order {α β : Type} (xs : List α)
    (enc : α → β) (d : β) (nWorkers : Nat) (ws : List (Nat × List β))
    (hperm : ws.Perm (taggedOutputs enc xs (nBuckets xs.length nWorkers))) :
    mergeBuckets ((sortBuckets ws).map Prod.snd) xs.length d = xs.map enc := by
  have hn : 0 < nBuckets xs.length nWorkers :=
    Nat.lt_of_lt_of_le Nat.zero_lt_one (Nat.le_max_right _ 1)
  rw [sortBuckets_eq_of_perm hperm (taggedOutputs_pairwise _ _ _),
    taggedOutputs_map_snd]
  have h := merge_assign hn d (xs.map enc)
  rwa [List.length_map] at h

/-- Witness for C1 at a concrete input: 3 inputs over 2 workers, with the
workers returning in reversed order. -/
theorem parallel_convert_restores_order_witness :
    mergeBuckets ((sortBuckets [(1, [21]), (0, [11, 31])]).map Prod.snd) 3 0 =
      [11, 21, 31] := by
  have h := parallel_convert_restores_order [10, 20, 30] (fun x => x + 1) 0 2
    [(1, [21]), (0, [11, 31])] (by decide)
  simpa using h

end RecBert
